import Mathlib

/-!
Verification of the BET sensitivity core (gradient estimation, QoI-subset
scoring and combinatorial QoI-subset search) against its specification.

The repository ships the QoI machinery as the modules
`bet.sensitivity.gradients` and `bet.sensitivity.chooseQoIs`, which are only
called (not defined) in `examples/sensitivity/linear_sensitivity.ipynb`.
The definitions below therefore embed those components as described by the
specification document, section by section.
-/

open scoped ENNReal
open scoped Matrix

namespace BET

/-! ### Evaluator: the skewness / measure scoring of a QoI subset (spec 4.2) -/

/-- Modelled from the spec: the scoring criterion of `score_subset`
(`criterion ∈ {measure, skewness}`), a tagged variant selecting one of the two
scoring strategies. -/
inductive Criterion : Type
  | measure : Criterion
  | skewness : Criterion
deriving DecidableEq

/-- Modelled from the spec: restriction of a Jacobian (`d_output × d_input`)
to the selected rows, in the order given by the index array `idx`
(`numpy` fancy indexing with an ordered index array of length `k`). -/
def restrictRows (J : Matrix (Fin m) (Fin n) ℝ) (idx : Fin k → Fin m) :
    Matrix (Fin k) (Fin n) ℝ :=
  Matrix.of fun i j => J (idx i) j

/-- Gram matrix `A * Aᴴ` of the restricted Jacobian; its eigenvalues are the
squares of the singular values of `A`. -/
def gram (A : Matrix (Fin k) (Fin n) ℝ) : Matrix (Fin k) (Fin k) ℝ :=
  A * Aᴴ

lemma gram_isHermitian (A : Matrix (Fin k) (Fin n) ℝ) : (gram A).IsHermitian :=
  Matrix.isHermitian_mul_conjTranspose_self A

lemma gram_posSemidef (A : Matrix (Fin k) (Fin n) ℝ) : (gram A).PosSemidef :=
  Matrix.posSemidef_self_mul_conjTranspose A

/-- Modelled from the spec: the singular values of the restricted `k × d_input`
Jacobian, as the square roots of the eigenvalues of its Gram matrix.  For
`k ≤ d_input` these are exactly the `k` largest singular values that the
spec's scoring rules consume. -/
noncomputable def singvals (A : Matrix (Fin k) (Fin n) ℝ) : Fin k → ℝ :=
  fun i => Real.sqrt ((gram_isHermitian A).eigenvalues i)

lemma singvals_nonneg (A : Matrix (Fin k) (Fin n) ℝ) (i : Fin k) :
    0 ≤ singvals A i :=
  Real.sqrt_nonneg _

/-- Modelled from the spec (4.2, module `bet.sensitivity.chooseQoIs` absent
from the sources): `score_subset(jacobian, indices, criterion)`.
The Jacobian is restricted to the selected rows and scored from the singular
values of the restriction:
* `measure`: the product of `1 / singular_value` over the `k` largest singular
  values; the score is valued in `ℝ≥0∞` so that a numerically zero singular
  value yields the infinite (inadmissible) score instead of an exception;
* `skewness`: the ratio of the largest to the smallest of the top `k`
  singular values (condition number).
The common core scoring an already-restricted matrix is `scoreMatrix`. -/
noncomputable def scoreMatrix (A : Matrix (Fin k) (Fin n) ℝ) : Criterion → ℝ≥0∞
  | Criterion.measure => ∏ i, (ENNReal.ofReal (singvals A i))⁻¹
  | Criterion.skewness =>
      (⨆ i, ENNReal.ofReal (singvals A i)) / (⨅ i, ENNReal.ofReal (singvals A i))

/-- Modelled from the spec (4.2): `score_subset(jacobian, indices, criterion)`
restricts the Jacobian to the selected rows and scores the restriction. -/
noncomputable def score_subset (J : Matrix (Fin m) (Fin n) ℝ)
    (idx : Fin k → Fin m) (crit : Criterion) : ℝ≥0∞ :=
  scoreMatrix (restrictRows J idx) crit

lemma sqrt_prod_eq {ι : Type} (s : Finset ι) (f : ι → ℝ) (h : ∀ i, 0 ≤ f i) :
    ∏ i ∈ s, Real.sqrt (f i) = Real.sqrt (∏ i ∈ s, f i) := by
  induction s using Finset.cons_induction with
  | empty => simp
  | cons i s hi ih => rw [Finset.prod_cons, Finset.prod_cons, ih, ← Real.sqrt_mul (h i)]

/-- The measure score depends on the restricted Jacobian only through the
determinant of its Gram matrix: it is `(sqrt (det (A * Aᴴ)))⁻¹` in `ℝ≥0∞`. -/
lemma score_subset_measure_eq (J : Matrix (Fin m) (Fin n) ℝ)
    (idx : Fin k → Fin m) :
    score_subset J idx Criterion.measure =
      (ENNReal.ofReal (Real.sqrt ((gram (restrictRows J idx)).det)))⁻¹ := by
  classical
  set A := restrictRows J idx with hA
  have hdet : (gram A).det = ∏ i, (gram_isHermitian A).eigenvalues i := by
    have h := (gram_isHermitian A).det_eq_prod_eigenvalues
    simpa [RCLike.ofReal_real_eq_id] using h
  have hprod : ∏ i, ENNReal.ofReal (singvals A i)
      = ENNReal.ofReal (∏ i, singvals A i) :=
    (ENNReal.ofReal_prod_of_nonneg fun i _ => singvals_nonneg A i).symm
  have hsqrt : ∏ i, singvals A i = Real.sqrt ((gram A).det) := by
    rw [hdet]
    exact sqrt_prod_eq Finset.univ _ fun i => (gram_posSemidef A).eigenvalues_nonneg i
  have hinv : (∏ i, ENNReal.ofReal (singvals A i))⁻¹
      = ∏ i, (ENNReal.ofReal (singvals A i))⁻¹ := by
    refine ENNReal.prod_inv_distrib ?_
    intro i _ j _ _
    exact Or.inr ENNReal.ofReal_ne_top
  show ∏ i, (ENNReal.ofReal (singvals A i))⁻¹ = _
  rw [← hinv, hprod, hsqrt]

lemma score_subset_skewness_def (J : Matrix (Fin m) (Fin n) ℝ)
    (idx : Fin k → Fin m) :
    score_subset J idx Criterion.skewness =
      (⨆ i, ENNReal.ofReal (singvals (restrictRows J idx) i)) /
        (⨅ i, ENNReal.ofReal (singvals (restrictRows J idx) i)) := rfl

lemma gram_apply_self (A : Matrix (Fin k) (Fin n) ℝ) (i : Fin k) :
    gram A i i = ∑ l, A i l * A i l := by
  simp [gram, Matrix.mul_apply, Matrix.conjTranspose_apply]

/-- A nonzero restricted Jacobian has at least one positive Gram eigenvalue,
hence at least one positive singular value. -/
lemma exists_eigenvalue_pos_of_ne_zero (A : Matrix (Fin k) (Fin n) ℝ)
    (hA : A ≠ 0) : ∃ i, 0 < (gram_isHermitian A).eigenvalues i := by
  classical
  by_contra h
  push_neg at h
  have hz : ∀ i, (gram_isHermitian A).eigenvalues i = 0 := fun i =>
    le_antisymm (h i) ((gram_posSemidef A).eigenvalues_nonneg i)
  have hd : Matrix.diagonal (RCLike.ofReal ∘ (gram_isHermitian A).eigenvalues)
      = (0 : Matrix (Fin k) (Fin k) ℝ) := by
    ext i j
    by_cases hij : i = j <;> simp [Matrix.diagonal_apply, hij, hz]
  have hg : gram A = 0 := by
    calc gram A = _ := (gram_isHermitian A).spectral_theorem
    _ = 0 := by rw [hd]; simp
  apply hA
  ext i j
  have h2 : (0 : ℝ) = ∑ l, A i l * A i l := by
    rw [← gram_apply_self A i, hg]; simp
  have h3 := (Finset.sum_eq_zero_iff_of_nonneg
    (fun l _ => mul_self_nonneg (A i l))).mp h2.symm j (Finset.mem_univ j)
  simpa [mul_self_eq_zero] using h3

/-- C3: for every valid (nonzero after restriction) Jacobian and every index
subset of size `k` with `2 ≤ k ≤ d_input`, the skewness score — the ratio of
the largest to the smallest of the top-`k` singular values — is at least 1. -/
theorem c3_skewness_ge_one {m n k : ℕ} (J : Matrix (Fin m) (Fin n) ℝ)
    (idx : Fin k → Fin m) (hk2 : 2 ≤ k) (hkn : k ≤ n)
    (hA : restrictRows J idx ≠ 0) :
    1 ≤ score_subset J idx Criterion.skewness := by
  haveI : Nonempty (Fin k) := ⟨⟨0, lt_of_lt_of_le two_pos hk2⟩⟩
  set A := restrictRows J idx with hAdef
  obtain ⟨i0, hpos⟩ := exists_eigenvalue_pos_of_ne_zero A hA
  have hσ : 0 < ENNReal.ofReal (singvals A i0) :=
    ENNReal.ofReal_pos.mpr (Real.sqrt_pos.mpr hpos)
  have hS : (⨆ i, ENNReal.ofReal (singvals A i)) ≠ 0 :=
    fun hc => by simpa [hc] using lt_of_lt_of_le hσ (le_iSup (fun i => ENNReal.ofReal (singvals A i)) i0)
  rw [score_subset_skewness_def, ← hAdef]
  by_cases hI : (⨅ i, ENNReal.ofReal (singvals A i)) = 0
  · rw [hI, ENNReal.div_zero hS]
    exact le_top
  · have hInatop : (⨅ i, ENNReal.ofReal (singvals A i)) ≠ ⊤ :=
      fun hc => by
        have := iInf_le (fun i => ENNReal.ofReal (singvals A i)) i0
        rw [hc] at this
        exact ENNReal.ofReal_ne_top (top_le_iff.mp this)
    rw [ENNReal.le_div_iff_mul_le (Or.inl hI) (Or.inl hInatop), one_mul]
    exact le_trans (iInf_le (fun i => ENNReal.ofReal (singvals A i)) i0) (le_iSup (fun i => ENNReal.ofReal (singvals A i)) i0)

/-- C2: a candidate subset whose top-`k` singular values include a zero is
scored as infinite (inadmissible) by the measure criterion rather than raising
an exception (the score is total); in particular, for a Jacobian with
`d_output = 4` identical rows, every size-2 subset gets the infinite score. -/
theorem c2_rank_deficient_inadmissible :
    (∀ (m n k : ℕ) (J : Matrix (Fin m) (Fin n) ℝ) (idx : Fin k → Fin m),
      2 ≤ k → k ≤ n → (∃ i, singvals (restrictRows J idx) i = 0) →
      score_subset J idx Criterion.measure = ⊤) ∧
    (∀ (n : ℕ) (J : Matrix (Fin 4) (Fin n) ℝ), (∀ r s, J r = J s) →
      ∀ a b : Fin 4, score_subset J ![a, b] Criterion.measure = ⊤) := by
  constructor
  · intro m n k J idx _ _ hzero
    obtain ⟨i, hi⟩ := hzero
    set A := restrictRows J idx
    have hlam : (gram_isHermitian A).eigenvalues i = 0 := by
      have hnn := (gram_posSemidef A).eigenvalues_nonneg i
      exact (Real.sqrt_eq_zero hnn).mp hi
    have hdet : (gram A).det = 0 := by
      have h := (gram_isHermitian A).det_eq_prod_eigenvalues
      have h2 : (gram A).det = ∏ j, (gram_isHermitian A).eigenvalues j := by
        simpa [RCLike.ofReal_real_eq_id] using h
      rw [h2]
      exact Finset.prod_eq_zero (Finset.mem_univ i) hlam
    rw [score_subset_measure_eq, hdet]
    simp
  · intro n J hrows a b
    set A := restrictRows J ![a, b] with hAdef
    have hAr : A 0 = A 1 := by
      funext j
      show J (![a, b] 0) j = J (![a, b] 1) j
      rw [hrows (![a, b] 0) (![a, b] 1)]
    have hGr : gram A 0 = gram A 1 := by
      funext j
      show (A * Aᴴ) 0 j = (A * Aᴴ) 1 j
      simp only [Matrix.mul_apply, hAr]
    have hdet : (gram A).det = 0 :=
      Matrix.det_zero_of_row_eq (by decide : (0 : Fin 2) ≠ 1) hGr
    rw [score_subset_measure_eq, ← hAdef, hdet]
    simp

/-- The single-center Jacobian of the spec's scenario for the measure
criterion: `d_input = 2`, `d_output = 3`, rows `[1,0]`, `[0,1]`, `[1,1]`. -/
def J1 : Matrix (Fin 3) (Fin 2) ℝ :=
  !![1, 0; 0, 1; 1, 1]

lemma J1_gram_det (a b : Fin 3) :
    (gram (restrictRows J1 ![a, b])).det =
      (J1 a 0 * J1 b 1 - J1 a 1 * J1 b 0) ^ 2 := by
  rw [Matrix.det_fin_two]
  simp only [gram, restrictRows, Matrix.mul_apply, Matrix.conjTranspose_apply,
    Fin.sum_univ_two, Matrix.of_apply, Matrix.cons_val_zero, Matrix.cons_val_one,
    Matrix.head_cons, star_trivial]
  ring

lemma J1_score_measure (a b : Fin 3)
    (h : (J1 a 0 * J1 b 1 - J1 a 1 * J1 b 0) ^ 2 = 1) :
    score_subset J1 ![a, b] Criterion.measure = 1 := by
  rw [score_subset_measure_eq, J1_gram_det, h]
  simp

/-- C1 counterexample: on the spec's own scenario Jacobian the measure score
of the row subset `{0, 2}` is exactly 1, not strictly greater than 1 as the
claim asserts. -/
theorem c1_counterexample :
    ¬ 1 < score_subset J1 ![0, 2] Criterion.measure := by
  have h : score_subset J1 ![0, 2] Criterion.measure = 1 := by
    apply J1_score_measure
    norm_num [J1, Matrix.vecHead, Matrix.vecTail]
  rw [h]
  exact lt_irrefl 1

/-- C1 (amended): the measure score of subset `{0,1}` is exactly 1; the
subsets `{0,2}` and `{1,2}` also score exactly 1 (each restricted 2×2 matrix
has determinant of absolute value 1, so the product of the reciprocals of its
two singular values is 1), not strictly greater than 1. -/
theorem c1_measure_scores :
    score_subset J1 ![0, 1] Criterion.measure = 1 ∧
    score_subset J1 ![0, 2] Criterion.measure = 1 ∧
    score_subset J1 ![1, 2] Criterion.measure = 1 := by
  refine ⟨?_, ?_, ?_⟩ <;> (apply J1_score_measure; norm_num [J1, Matrix.vecHead, Matrix.vecTail])

/-! ### Order-invariance of the scores (spec 8, set semantics) -/

lemma charmatrix_conj {k : ℕ} (P M Q : Matrix (Fin k) (Fin k) ℝ)
    (hPQ : P * Q = 1) :
    (P * M * Q).charmatrix =
      P.map Polynomial.C * M.charmatrix * Q.map Polynomial.C := by
  have hscal : P.map Polynomial.C * Matrix.scalar (Fin k) (Polynomial.X : Polynomial ℝ)
      * Q.map Polynomial.C = Matrix.scalar (Fin k) Polynomial.X := by
    rw [← Matrix.scalar_commute (Polynomial.X : Polynomial ℝ)
      (fun r => Commute.all Polynomial.X r) (P.map Polynomial.C), mul_assoc,
      ← Matrix.map_mul, hPQ, Matrix.map_one Polynomial.C (map_zero _) (map_one _), mul_one]
  have hmap : P.map Polynomial.C * M.map Polynomial.C * Q.map Polynomial.C
      = (P * M * Q).map Polynomial.C := by
    rw [← Matrix.map_mul, ← Matrix.map_mul]
  calc (P * M * Q).charmatrix
      = Matrix.scalar (Fin k) Polynomial.X - (P * M * Q).map Polynomial.C := rfl
  _ = P.map Polynomial.C * Matrix.scalar (Fin k) Polynomial.X * Q.map Polynomial.C
      - P.map Polynomial.C * M.map Polynomial.C * Q.map Polynomial.C := by
      rw [hscal, hmap]
  _ = P.map Polynomial.C * (Matrix.scalar (Fin k) Polynomial.X - M.map Polynomial.C)
      * Q.map Polynomial.C := by
      rw [Matrix.mul_sub, Matrix.sub_mul]
  _ = P.map Polynomial.C * M.charmatrix * Q.map Polynomial.C := rfl

lemma charpoly_conj {k : ℕ} (P M Q : Matrix (Fin k) (Fin k) ℝ)
    (hPQ : P * Q = 1) : (P * M * Q).charpoly = M.charpoly := by
  have h1 : P.map Polynomial.C * Q.map Polynomial.C = (1 : Matrix (Fin k) (Fin k) (Polynomial ℝ)) := by
    rw [← Matrix.map_mul, hPQ, Matrix.map_one Polynomial.C (map_zero _) (map_one _)]
  have h2 : (P.map Polynomial.C).det * (Q.map Polynomial.C).det = 1 := by
    rw [← Matrix.det_mul, h1, Matrix.det_one]
  rw [Matrix.charpoly, Matrix.charpoly, charmatrix_conj P M Q hPQ,
    Matrix.det_mul, Matrix.det_mul]
  calc (P.map Polynomial.C).det * M.charmatrix.det * (Q.map Polynomial.C).det
      = (P.map Polynomial.C).det * (Q.map Polynomial.C).det * M.charmatrix.det := by ring
  _ = M.charmatrix.det := by rw [h2, one_mul]

lemma charmatrix_diagonal {k : ℕ} (v : Fin k → ℝ) :
    (Matrix.diagonal v).charmatrix =
      Matrix.diagonal (fun i => Polynomial.X - Polynomial.C (v i)) := by
  ext i j
  by_cases h : i = j
  · subst h
    simp
  · rw [Matrix.charmatrix_apply_ne _ _ _ h, Matrix.diagonal_apply_ne _ h,
      Matrix.diagonal_apply_ne _ h]
    simp

/-- The characteristic polynomial of a real symmetric matrix is the product of
the linear factors at its eigenvalues. -/
lemma charpoly_isHermitian_eq {k : ℕ} {A : Matrix (Fin k) (Fin k) ℝ}
    (hA : A.IsHermitian) :
    A.charpoly = ∏ i, (Polynomial.X - Polynomial.C (hA.eigenvalues i)) := by
  have hU := (Matrix.mem_unitaryGroup_iff).mp (hA.eigenvectorUnitary).2
  have hdiag : Matrix.diagonal (RCLike.ofReal ∘ hA.eigenvalues)
      = Matrix.diagonal hA.eigenvalues := by
    funext i j
    simp [RCLike.ofReal_real_eq_id]
  calc A.charpoly
      = ((hA.eigenvectorUnitary : Matrix (Fin k) (Fin k) ℝ)
          * Matrix.diagonal hA.eigenvalues
          * star (hA.eigenvectorUnitary : Matrix (Fin k) (Fin k) ℝ)).charpoly := by
        rw [← hdiag, ← hA.spectral_theorem]
  _ = (Matrix.diagonal hA.eigenvalues).charpoly := charpoly_conj _ _ _ hU
  _ = ∏ i, (Polynomial.X - Polynomial.C (hA.eigenvalues i)) := by
        rw [Matrix.charpoly, charmatrix_diagonal, Matrix.det_diagonal]

/-- Real symmetric matrices with equal characteristic polynomials have equal
eigenvalue multisets. -/
lemma eigenvalues_multiset_eq_of_charpoly {k : ℕ}
    {A B : Matrix (Fin k) (Fin k) ℝ} (hA : A.IsHermitian) (hB : B.IsHermitian)
    (h : A.charpoly = B.charpoly) :
    Multiset.map hA.eigenvalues Finset.univ.val
      = Multiset.map hB.eigenvalues Finset.univ.val := by
  have hprod : ∏ i, (Polynomial.X - Polynomial.C (hA.eigenvalues i))
      = ∏ i, (Polynomial.X - Polynomial.C (hB.eigenvalues i)) := by
    rw [← charpoly_isHermitian_eq hA, ← charpoly_isHermitian_eq hB, h]
  have h2 := congrArg Polynomial.roots hprod
  rwa [Finset.prod_eq_multiset_prod, Finset.prod_eq_multiset_prod,
    show (fun i => Polynomial.X - Polynomial.C (hA.eigenvalues i))
        = (fun a => Polynomial.X - Polynomial.C a) ∘ hA.eigenvalues from rfl,
    show (fun i => Polynomial.X - Polynomial.C (hB.eigenvalues i))
        = (fun a => Polynomial.X - Polynomial.C a) ∘ hB.eigenvalues from rfl,
    ← Multiset.map_map, ← Multiset.map_map,
    Polynomial.roots_multiset_prod_X_sub_C, Polynomial.roots_multiset_prod_X_sub_C] at h2

lemma restrictRows_comp_perm {m n k : ℕ} (J : Matrix (Fin m) (Fin n) ℝ)
    (idx : Fin k → Fin m) (σ : Equiv.Perm (Fin k)) :
    restrictRows J (idx ∘ σ) = (restrictRows J idx).submatrix σ id := rfl

lemma gram_restrict_perm {m n k : ℕ} (J : Matrix (Fin m) (Fin n) ℝ)
    (idx : Fin k → Fin m) (σ : Equiv.Perm (Fin k)) :
    gram (restrictRows J (idx ∘ σ)) = (gram (restrictRows J idx)).submatrix σ σ := by
  rw [restrictRows_comp_perm, gram, gram, Matrix.conjTranspose_submatrix]
  have h := Matrix.submatrix_mul_equiv (restrictRows J idx) (restrictRows J idx)ᴴ
    (⇑σ) (Equiv.refl (Fin n)) (⇑σ)
  simpa using h

lemma charpoly_gram_perm {m n k : ℕ} (J : Matrix (Fin m) (Fin n) ℝ)
    (idx : Fin k → Fin m) (σ : Equiv.Perm (Fin k)) :
    (gram (restrictRows J (idx ∘ σ))).charpoly
      = (gram (restrictRows J idx)).charpoly := by
  rw [gram_restrict_perm]
  have h : (gram (restrictRows J idx)).submatrix ⇑σ ⇑σ
      = Matrix.reindex σ.symm σ.symm (gram (restrictRows J idx)) := by
    simp [Matrix.reindex_apply]
  rw [h, Matrix.charpoly_reindex]

lemma singvals_multiset_perm {m n k : ℕ} (J : Matrix (Fin m) (Fin n) ℝ)
    (idx : Fin k → Fin m) (σ : Equiv.Perm (Fin k)) :
    Multiset.map (singvals (restrictRows J (idx ∘ σ))) Finset.univ.val
      = Multiset.map (singvals (restrictRows J idx)) Finset.univ.val := by
  have h := eigenvalues_multiset_eq_of_charpoly
    (gram_isHermitian (restrictRows J (idx ∘ σ)))
    (gram_isHermitian (restrictRows J idx))
    (charpoly_gram_perm J idx σ)
  have h2 := congrArg (Multiset.map Real.sqrt) h
  rwa [Multiset.map_map, Multiset.map_map] at h2

lemma iSup_eq_of_multiset_eq {k : ℕ} (f g : Fin k → ℝ≥0∞)
    (h : Multiset.map f Finset.univ.val = Multiset.map g Finset.univ.val) :
    (⨆ i, f i) = ⨆ i, g i := by
  apply le_antisymm <;> refine iSup_le fun i => ?_
  · have hm : f i ∈ Multiset.map g Finset.univ.val := by
      rw [← h]
      exact Multiset.mem_map_of_mem f (Finset.mem_univ i)
    obtain ⟨j, _, hj⟩ := Multiset.mem_map.mp hm
    rw [← hj]
    exact le_iSup g j
  · have hm : g i ∈ Multiset.map f Finset.univ.val := by
      rw [h]
      exact Multiset.mem_map_of_mem g (Finset.mem_univ i)
    obtain ⟨j, _, hj⟩ := Multiset.mem_map.mp hm
    rw [← hj]
    exact le_iSup f j

lemma iInf_eq_of_multiset_eq {k : ℕ} (f g : Fin k → ℝ≥0∞)
    (h : Multiset.map f Finset.univ.val = Multiset.map g Finset.univ.val) :
    (⨅ i, f i) = ⨅ i, g i := by
  apply le_antisymm <;> refine le_iInf fun i => ?_
  · have hm : g i ∈ Multiset.map f Finset.univ.val := by
      rw [h]
      exact Multiset.mem_map_of_mem g (Finset.mem_univ i)
    obtain ⟨j, _, hj⟩ := Multiset.mem_map.mp hm
    rw [← hj]
    exact iInf_le f j
  · have hm : f i ∈ Multiset.map g Finset.univ.val := by
      rw [← h]
      exact Multiset.mem_map_of_mem f (Finset.mem_univ i)
    obtain ⟨j, _, hj⟩ := Multiset.mem_map.mp hm
    rw [← hj]
    exact iInf_le g j

/-- C7: for every Jacobian, every criterion, and every index array of length
`k ≤ d_input`, `score_subset` gives the same score on any reordering of the
selected indices: precomposing the index array with a permutation does not
change the score. -/
theorem c7_score_subset_order_invariant {m n k : ℕ} (J : Matrix (Fin m) (Fin n) ℝ)
    (idx : Fin k → Fin m) (σ : Equiv.Perm (Fin k)) (crit : Criterion)
    (hkn : k ≤ n) :
    score_subset J (idx ∘ σ) crit = score_subset J idx crit := by
  have hms : Multiset.map (fun i => ENNReal.ofReal (singvals (restrictRows J (idx ∘ σ)) i))
        Finset.univ.val
      = Multiset.map (fun i => ENNReal.ofReal (singvals (restrictRows J idx) i))
        Finset.univ.val := by
    have h := congrArg (Multiset.map ENNReal.ofReal) (singvals_multiset_perm J idx σ)
    rwa [Multiset.map_map, Multiset.map_map] at h
  cases crit with
  | measure =>
      rw [score_subset_measure_eq, score_subset_measure_eq, gram_restrict_perm,
        Matrix.det_submatrix_equiv_self]
  | skewness =>
      rw [score_subset_skewness_def, score_subset_skewness_def,
        iSup_eq_of_multiset_eq _ _ hms, iInf_eq_of_multiset_eq _ _ hms]

theorem c3_skewness_ge_one_witness :
    (2 ≤ 2 ∧ restrictRows !![(1:ℝ), 0; 0, 1] ![0, 1] ≠ 0) ∧
    1 ≤ score_subset !![(1:ℝ), 0; 0, 1] ![0, 1] Criterion.skewness := by
  have hne : restrictRows !![(1:ℝ), 0; 0, 1] ![0, 1] ≠ 0 := by
    intro h
    have h00 := congrFun (congrFun h 0) 0
    simp [restrictRows, Matrix.vecHead, Matrix.vecTail] at h00
  exact ⟨⟨le_refl 2, hne⟩,
    c3_skewness_ge_one !![(1:ℝ), 0; 0, 1] ![0, 1] (le_refl 2) (le_refl 2) hne⟩

theorem c2_rank_deficient_witness :
    (∀ r s : Fin 4, (Matrix.of fun _ : Fin 4 => ![(1:ℝ), 2]) r
        = (Matrix.of fun _ : Fin 4 => ![(1:ℝ), 2]) s) ∧
    score_subset (Matrix.of fun _ : Fin 4 => ![(1:ℝ), 2]) ![0, 1]
        Criterion.measure = ⊤ :=
  ⟨fun _ _ => rfl,
    c2_rank_deficient_inadmissible.2 2 (Matrix.of fun _ : Fin 4 => ![(1:ℝ), 2])
      (fun _ _ => rfl) 0 1⟩

theorem c7_order_invariant_witness :
    (2 ≤ 2) ∧
    score_subset !![(1:ℝ), 0; 1, 1] (![0, 1] ∘ ⇑(Equiv.swap (0 : Fin 2) 1))
        Criterion.skewness
      = score_subset !![(1:ℝ), 0; 1, 1] ![0, 1] Criterion.skewness :=
  ⟨le_refl 2,
    c7_score_subset_order_invariant !![(1:ℝ), 0; 1, 1] ![0, 1]
      (Equiv.swap 0 1) Criterion.skewness (le_refl 2)⟩

/-! ### QoI Subset Search (spec 4.3) -/

section Search

variable {α : Type} [LinearOrder α]

/-- Modelled from the spec: candidate index subsets of size `k` drawn from a
pool of indices, enumerated in the order the search discovers them
(lexicographic in the pool order). -/
def combos : ℕ → List ℕ → List (List ℕ)
  | 0, _ => [[]]
  | _ + 1, [] => []
  | k + 1, x :: xs => (combos k xs).map (fun s => x :: s) ++ combos (k + 1) xs

/-- Comparator for the per-size ranked tables: ascending score, ties broken by
the discovery tag (spec 4.3: ties broken by order of discovery, stable). -/
def tagLE (a b : ℕ × α × List ℕ) : Prop :=
  a.2.1 < b.2.1 ∨ (a.2.1 = b.2.1 ∧ a.1 ≤ b.1)

instance : DecidableRel (tagLE (α := α)) := fun a b => by
  unfold tagLE
  infer_instance

instance : IsTotal (ℕ × α × List ℕ) tagLE :=
  ⟨fun a b => by
    rcases lt_trichotomy a.2.1 b.2.1 with h | h | h
    · exact Or.inl (Or.inl h)
    · rcases Nat.le_total a.1 b.1 with h2 | h2
      · exact Or.inl (Or.inr ⟨h, h2⟩)
      · exact Or.inr (Or.inr ⟨h.symm, h2⟩)
    · exact Or.inr (Or.inl h)⟩

instance : IsTrans (ℕ × α × List ℕ) tagLE :=
  ⟨fun a b c hab hbc => by
    rcases hab with h1 | ⟨h1, h1t⟩ <;> rcases hbc with h2 | ⟨h2, h2t⟩
    · exact Or.inl (h1.trans h2)
    · exact Or.inl (lt_of_lt_of_le h1 (le_of_eq h2))
    · exact Or.inl (lt_of_le_of_lt (le_of_eq h1) h2)
    · exact Or.inr ⟨h1.trans h2, h1t.trans h2t⟩⟩

/-- Candidates paired with their scores, tagged by discovery index. -/
def scoredCands (score : List ℕ → α) (cands : List (List ℕ)) :
    List (ℕ × α × List ℕ) :=
  (cands.map (fun s => (score s, s))).enum

/-- Modelled from the spec: the per-size ranked table — the
`num_optsets_return` lowest-scoring distinct subsets found, in ascending score
order, ties broken by order of discovery (stable). -/
def rankedTable (score : List ℕ → α) (cands : List (List ℕ)) (N : ℕ) :
    List (α × List ℕ) :=
  ((List.insertionSort tagLE (scoredCands score cands)).take N).map (fun e => e.2)

/-- Insertion of an index into an ascending index list, keeping it sorted. -/
def insertAsc (i : ℕ) : List ℕ → List ℕ
  | [] => [i]
  | x :: xs => if i ≤ x then i :: x :: xs else x :: insertAsc i xs

/-- Deduplication keeping the first occurrence (discovery order). -/
def dedupFirst : List (List ℕ) → List (List ℕ)
  | [] => []
  | x :: xs => x :: dedupFirst (xs.filter (fun y => y ≠ x))
termination_by l => l.length
decreasing_by
  simp only [List.length_cons]
  exact Nat.lt_succ_of_le (List.length_filter_le _ _)

/-- Modelled from the spec (4.3): greedy bounded expansion — each retained
size-(k-1) subset is extended by one pool index not yet included; duplicate
subsets keep their first discovery. -/
def expandSeeds (pool : List ℕ) (seeds : List (List ℕ)) : List (List ℕ) :=
  dedupFirst (seeds.flatMap fun s =>
    (pool.filter fun i => !(s.contains i)).map fun i => insertAsc i s)

/-- Modelled from the spec: the seeds kept for the next size are the table
entries whose score passes the optional `score_tol` cutoff. -/
def seedsOf (t : List (α × List ℕ)) : Option α → List (List ℕ)
  | none => t.map (fun e => e.2)
  | some tol => (t.filter (fun e => e.1 ≤ tol)).map (fun e => e.2)

/-- Candidate lists per target size: size 2 enumerates pairs over the
(similarity-filtered) pool; later sizes grow greedily from the retained
subsets of the previous table. -/
def candsStages (score : List ℕ → α) (pool : List ℕ) (N : ℕ)
    (scoreTol : Option α) : ℕ → List (List ℕ) → List (List (List ℕ))
  | 0, _ => []
  | cnt + 1, cands =>
      cands :: candsStages score pool N scoreTol cnt
        (expandSeeds pool (seedsOf (rankedTable score cands N) scoreTol))

/-- Modelled from the spec (4.3): pairwise inner-product similarity filter —
scan the candidate indices in order and keep an index only when it is not
similar to an already-kept representative. -/
def filterSim (sim : ℕ → ℕ → Bool) : List ℕ → List ℕ → List ℕ
  | _, [] => []
  | kept, i :: rest =>
      if kept.any (fun j => sim j i) then filterSim sim kept rest
      else i :: filterSim sim (i :: kept) rest

/-- The per-size candidate lists explored by the search. -/
def searchCands (score : List ℕ → α) (sim : ℕ → ℕ → Bool)
    (d_output max_subset_size num_optsets_return : ℕ) (scoreTol : Option α) :
    List (List (List ℕ)) :=
  candsStages score (filterSim sim [] (List.range d_output)) num_optsets_return
    scoreTol (min max_subset_size d_output - 1)
    (combos 2 (filterSim sim [] (List.range d_output)))

/-- Modelled from the spec (4.3, module `bet.sensitivity.chooseQoIs` absent
from the sources): `choose_optimal_qois` — one ranked table per target subset
size `k = 2 .. min (max_subset_size, d_output)` (the search silently caps at
`d_output`), each listing up to `num_optsets_return` best (score, subset)
rows. The scoring function, the similarity relation derived from
`inner_prod_tol`, and the `score_tol` cutoff are parameters. -/
def choose_optimal_qois (score : List ℕ → α) (sim : ℕ → ℕ → Bool)
    (d_output max_subset_size num_optsets_return : ℕ) (scoreTol : Option α) :
    List (List (α × List ℕ)) :=
  (searchCands score sim d_output max_subset_size num_optsets_return scoreTol).map
    (fun cs => rankedTable score cs num_optsets_return)

/-- Modelled from the notebook API: `chooseOptQoIs_large` runs the search with
`max_subset_size` defaulting to the input dimension. -/
def chooseOptQoIs_large (score : List ℕ → α) (sim : ℕ → ℕ → Bool)
    (d_output d_input num_optsets_return : ℕ) (scoreTol : Option α) :
    List (List (α × List ℕ)) :=
  choose_optimal_qois score sim d_output d_input num_optsets_return scoreTol

end Search

section SearchLemmas

variable {α : Type} [LinearOrder α]

lemma scoredCands_length (score : List ℕ → α) (cands : List (List ℕ)) :
    (scoredCands score cands).length = cands.length := by
  simp [scoredCands]

lemma mem_scoredCands {score : List ℕ → α} {cands : List (List ℕ)}
    {e : ℕ × α × List ℕ} (he : e ∈ scoredCands score cands) :
    ∃ h : e.1 < cands.length,
      e.2 = (score (cands.get ⟨e.1, h⟩), cands.get ⟨e.1, h⟩) := by
  unfold scoredCands at he
  rw [List.mem_enum_iff_getElem?, List.getElem?_map] at he
  obtain ⟨y, hy, hfy⟩ := Option.map_eq_some'.mp he
  obtain ⟨h, hval⟩ := List.getElem?_eq_some_iff.mp hy
  refine ⟨h, ?_⟩
  rw [← hfy]
  rw [List.get_eq_getElem, hval]

lemma scoredCands_map_sub (score : List ℕ → α) (cands : List (List ℕ)) :
    (scoredCands score cands).map (fun e => e.2.2) = cands := by
  show List.map ((fun p : α × List ℕ => p.2) ∘ Prod.snd)
    ((cands.map (fun s => (score s, s))).enum) = cands
  rw [← List.map_map, List.enum_eq_enumFrom, List.enumFrom_map_snd, List.map_map]
  exact List.map_id'' (fun x => rfl) cands

lemma scoredCands_map_fst (score : List ℕ → α) (cands : List (List ℕ)) :
    (scoredCands score cands).map Prod.fst = List.range cands.length := by
  unfold scoredCands
  rw [List.enum_eq_enumFrom, List.enumFrom_map_fst, List.length_map,
    ← List.range_eq_range']

lemma rankedTable_length_le (score : List ℕ → α) (cands : List (List ℕ)) (N : ℕ) :
    (rankedTable score cands N).length ≤ N := by
  rw [rankedTable, List.length_map, List.length_take]
  exact min_le_left _ _

lemma rankedTable_sorted (score : List ℕ → α) (cands : List (List ℕ)) (N : ℕ) :
    (rankedTable score cands N).Pairwise (fun a b => a.1 ≤ b.1) := by
  have hs : List.Pairwise (tagLE (α := α))
      ((List.insertionSort tagLE (scoredCands score cands)).take N) :=
    List.Pairwise.sublist (List.take_sublist N _)
      (List.sorted_insertionSort tagLE _)
  rw [rankedTable, List.pairwise_map]
  refine hs.imp ?_
  intro a b hab
  rcases hab with h | ⟨h, _⟩
  · exact le_of_lt h
  · exact le_of_eq h

lemma rankedTable_subsets_nodup (score : List ℕ → α) (cands : List (List ℕ))
    (N : ℕ) (h : cands.Nodup) :
    ((rankedTable score cands N).map (fun e => e.2)).Nodup := by
  have hperm : List.Perm ((List.insertionSort tagLE (scoredCands score cands)).map
      (fun e : ℕ × α × List ℕ => e.2.2)) cands := by
    have h2 := (List.perm_insertionSort tagLE (scoredCands score cands)).map
      (fun e : ℕ × α × List ℕ => e.2.2)
    rwa [scoredCands_map_sub] at h2
  have hnd : ((List.insertionSort tagLE (scoredCands score cands)).map
      (fun e : ℕ × α × List ℕ => e.2.2)).Nodup := hperm.nodup_iff.mpr h
  have hsub := (List.take_sublist N
    (List.insertionSort tagLE (scoredCands score cands))).map
      (fun e : ℕ × α × List ℕ => e.2.2)
  have hres := List.Nodup.sublist hsub hnd
  rw [rankedTable, List.map_map]
  exact hres

lemma rankedTable_row_mem (score : List ℕ → α) (cands : List (List ℕ)) (N : ℕ)
    {r : α × List ℕ} (hr : r ∈ rankedTable score cands N) :
    r.1 = score r.2 ∧ r.2 ∈ cands := by
  rw [rankedTable, List.mem_map] at hr
  obtain ⟨e, he, rfl⟩ := hr
  have he2 : e ∈ List.insertionSort tagLE (scoredCands score cands) :=
    (List.take_sublist N _).subset he
  have he3 : e ∈ scoredCands score cands :=
    ((List.perm_insertionSort tagLE _).mem_iff).mp he2
  obtain ⟨h, heq⟩ := mem_scoredCands he3
  constructor
  · rw [heq]
  · rw [heq]
    exact List.get_mem _ _ _

/-- Position of the first occurrence of a candidate subset in the discovery
order of the enumeration. -/
def discoveryIndex (cands : List (List ℕ)) (s : List ℕ) : ℕ :=
  List.findIdx (fun t => t = s) cands

lemma discoveryIndex_get : ∀ (cands : List (List ℕ)), cands.Nodup →
    ∀ (i : ℕ) (hi : i < cands.length),
      discoveryIndex cands (cands.get ⟨i, hi⟩) = i
  | [], _, i, hi => by simp at hi
  | x :: xs, hnd, 0, hi => by
      simp [discoveryIndex, List.findIdx_cons]
  | x :: xs, hnd, i + 1, hi => by
      have hx : x ∉ xs := (List.nodup_cons.mp hnd).1
      have hxs : xs.Nodup := (List.nodup_cons.mp hnd).2
      have hi2 : i < xs.length := by simpa using hi
      have hne : ¬ (x = xs.get ⟨i, hi2⟩) := by
        intro hc
        exact hx (hc ▸ List.get_mem xs i hi2)
      have hgt : (x :: xs).get ⟨i + 1, hi⟩ = xs.get ⟨i, hi2⟩ := rfl
      rw [discoveryIndex, hgt, List.findIdx_cons]
      have hd : (decide (x = xs.get ⟨i, hi2⟩)) = false := decide_eq_false hne
      rw [hd, cond_false]
      have := discoveryIndex_get xs hxs i hi2
      rw [discoveryIndex] at this
      omega

lemma rankedTable_get_eq (score : List ℕ → α) (cands : List (List ℕ)) (N : ℕ)
    (i : ℕ) (hi : i < (rankedTable score cands N).length) :
    ∃ hiL : i < ((List.insertionSort tagLE (scoredCands score cands)).take N).length,
      (rankedTable score cands N).get ⟨i, hi⟩
        = (((List.insertionSort tagLE (scoredCands score cands)).take N).get
            ⟨i, hiL⟩).2 := by
  have hiL : i < ((List.insertionSort tagLE (scoredCands score cands)).take N).length := by
    have h2 := hi
    rw [rankedTable, List.length_map] at h2
    exact h2
  refine ⟨hiL, ?_⟩
  show (((List.insertionSort tagLE (scoredCands score cands)).take N).map
      (fun e : ℕ × α × List ℕ => e.2)).get ⟨i, hi⟩
    = (((List.insertionSort tagLE (scoredCands score cands)).take N).get ⟨i, hiL⟩).2
  rw [List.get_eq_getElem, List.getElem_map, List.get_eq_getElem]

lemma rankedTable_stable (score : List ℕ → α) (cands : List (List ℕ)) (N : ℕ)
    (hnd : cands.Nodup) {i j : ℕ}
    (hi : i < (rankedTable score cands N).length)
    (hj : j < (rankedTable score cands N).length) (hij : i < j) :
    ((rankedTable score cands N).get ⟨i, hi⟩).1
        < ((rankedTable score cands N).get ⟨j, hj⟩).1 ∨
    (((rankedTable score cands N).get ⟨i, hi⟩).1
        = ((rankedTable score cands N).get ⟨j, hj⟩).1 ∧
      discoveryIndex cands ((rankedTable score cands N).get ⟨i, hi⟩).2 <
        discoveryIndex cands ((rankedTable score cands N).get ⟨j, hj⟩).2) := by
  classical
  obtain ⟨hiL, hgeti⟩ := rankedTable_get_eq score cands N i hi
  obtain ⟨hjL, hgetj⟩ := rankedTable_get_eq score cands N j hj
  have hpw : List.Pairwise (tagLE (α := α))
      ((List.insertionSort tagLE (scoredCands score cands)).take N) :=
    List.Pairwise.sublist (List.take_sublist N _)
      (List.sorted_insertionSort tagLE _)
  have hrel := List.pairwise_iff_get.mp hpw ⟨i, hiL⟩ ⟨j, hjL⟩ hij
  have htagsnd : (((List.insertionSort tagLE (scoredCands score cands)).take N).map
      Prod.fst).Nodup := by
    have hperm : List.Perm ((List.insertionSort tagLE (scoredCands score cands)).map
        Prod.fst) (List.range cands.length) := by
      have h2 := (List.perm_insertionSort tagLE (scoredCands score cands)).map
        (Prod.fst (α := ℕ) (β := α × List ℕ))
      rwa [scoredCands_map_fst] at h2
    exact List.Nodup.sublist ((List.take_sublist N _).map Prod.fst)
      (hperm.nodup_iff.mpr (List.nodup_range _))
  have htagne : (((List.insertionSort tagLE (scoredCands score cands)).take N).get
      ⟨i, hiL⟩).1 ≠ (((List.insertionSort tagLE (scoredCands score cands)).take N).get
      ⟨j, hjL⟩).1 := by
    intro hc
    have h1 : (((List.insertionSort tagLE (scoredCands score cands)).take N).map
        Prod.fst).get ⟨i, by simpa using hiL⟩
        = (((List.insertionSort tagLE (scoredCands score cands)).take N).map
        Prod.fst).get ⟨j, by simpa using hjL⟩ := by
      rw [List.get_eq_getElem, List.get_eq_getElem, List.getElem_map, List.getElem_map]
      rw [List.get_eq_getElem, List.get_eq_getElem] at hc
      exact hc
    have h2 := List.Nodup.get_inj_iff htagsnd |>.mp h1
    have h3 : i = j := congrArg Fin.val h2
    omega
  have hmemi : ((List.insertionSort tagLE (scoredCands score cands)).take N).get
      ⟨i, hiL⟩ ∈ scoredCands score cands :=
    ((List.perm_insertionSort tagLE _).mem_iff).mp
      ((List.take_sublist N _).subset (List.get_mem _ _ _))
  have hmemj : ((List.insertionSort tagLE (scoredCands score cands)).take N).get
      ⟨j, hjL⟩ ∈ scoredCands score cands :=
    ((List.perm_insertionSort tagLE _).mem_iff).mp
      ((List.take_sublist N _).subset (List.get_mem _ _ _))
  obtain ⟨hci, heqi⟩ := mem_scoredCands hmemi
  obtain ⟨hcj, heqj⟩ := mem_scoredCands hmemj
  have hidxi : discoveryIndex cands ((((List.insertionSort tagLE
      (scoredCands score cands)).take N).get ⟨i, hiL⟩).2).2
      = (((List.insertionSort tagLE (scoredCands score cands)).take N).get
        ⟨i, hiL⟩).1 := by
    rw [heqi]
    exact discoveryIndex_get cands hnd _ hci
  have hidxj : discoveryIndex cands ((((List.insertionSort tagLE
      (scoredCands score cands)).take N).get ⟨j, hjL⟩).2).2
      = (((List.insertionSort tagLE (scoredCands score cands)).take N).get
        ⟨j, hjL⟩).1 := by
    rw [heqj]
    exact discoveryIndex_get cands hnd _ hcj
  rw [hgeti, hgetj]
  rcases hrel with h | ⟨heq, hle⟩
  · exact Or.inl h
  · refine Or.inr ⟨heq, ?_⟩
    rw [hidxi, hidxj]
    omega

lemma combos_length_mem : ∀ (k : ℕ) (l : List ℕ), ∀ s ∈ combos k l, s.length = k
  | 0, l => by simp [combos]
  | k + 1, [] => by simp [combos]
  | k + 1, x :: xs => by
      intro s hs
      rw [combos, List.mem_append] at hs
      rcases hs with hs | hs
      · obtain ⟨t, ht, rfl⟩ := List.mem_map.mp hs
        simp [combos_length_mem k xs t ht]
      · exact combos_length_mem (k + 1) xs s hs

lemma combos_mem_mem : ∀ (k : ℕ) (l : List ℕ), ∀ s ∈ combos k l, ∀ a ∈ s, a ∈ l
  | 0, l => by
      intro s hs
      simp [combos] at hs
      simp [hs]
  | k + 1, [] => by simp [combos]
  | k + 1, x :: xs => by
      intro s hs a ha
      rw [combos, List.mem_append] at hs
      rcases hs with hs | hs
      · obtain ⟨t, ht, rfl⟩ := List.mem_map.mp hs
        rcases List.mem_cons.mp ha with rfl | ha2
        · exact List.mem_cons_self a xs
        · exact List.mem_cons_of_mem x (combos_mem_mem k xs t ht a ha2)
      · exact List.mem_cons_of_mem x (combos_mem_mem (k + 1) xs s hs a ha)

lemma combos_count : ∀ (k : ℕ) (l : List ℕ), (combos k l).length = l.length.choose k
  | 0, l => by simp [combos]
  | k + 1, [] => by simp [combos]
  | k + 1, x :: xs => by
      rw [combos, List.length_append, List.length_map, combos_count k xs,
        combos_count (k + 1) xs]
      simp [Nat.choose_succ_succ, Nat.add_comm]

lemma combos_nodup : ∀ (k : ℕ) (l : List ℕ), l.Nodup → (combos k l).Nodup
  | 0, l, _ => by simp [combos]
  | k + 1, [], _ => by simp [combos]
  | k + 1, x :: xs, h => by
      rw [combos, List.nodup_append]
      have hx : x ∉ xs := (List.nodup_cons.mp h).1
      have hxs : xs.Nodup := (List.nodup_cons.mp h).2
      refine ⟨?_, combos_nodup (k + 1) xs hxs, ?_⟩
      · refine (combos_nodup k xs hxs).map ?_
        intro a b hab
        injection hab
      · intro s hs1 hs2
        obtain ⟨t, ht, rfl⟩ := List.mem_map.mp hs1
        exact hx (combos_mem_mem (k + 1) xs _ hs2 x (List.mem_cons_self x t))

lemma dedupFirst_subset : ∀ (l : List (List ℕ)), ∀ a ∈ dedupFirst l, a ∈ l
  | [] => by simp [dedupFirst]
  | x :: xs => by
      intro a ha
      rw [dedupFirst] at ha
      rcases List.mem_cons.mp ha with rfl | ha2
      · exact List.mem_cons_self a xs
      · have := dedupFirst_subset _ a ha2
        exact List.mem_cons_of_mem x (List.mem_of_mem_filter this)
termination_by l => l.length
decreasing_by
  simp only [List.length_cons]
  exact Nat.lt_succ_of_le (List.length_filter_le _ _)

lemma dedupFirst_nodup : ∀ (l : List (List ℕ)), (dedupFirst l).Nodup
  | [] => by simp [dedupFirst]
  | x :: xs => by
      rw [dedupFirst, List.nodup_cons]
      refine ⟨?_, dedupFirst_nodup _⟩
      intro hc
      have hm := dedupFirst_subset _ x hc
      have := List.of_mem_filter hm
      simp at this
termination_by l => l.length
decreasing_by
  all_goals simp only [List.length_cons]
  all_goals exact Nat.lt_succ_of_le (List.length_filter_le _ _)

lemma insertAsc_length (i : ℕ) : ∀ s : List ℕ, (insertAsc i s).length = s.length + 1
  | [] => rfl
  | x :: xs => by
      rw [insertAsc]
      split_ifs <;> simp [insertAsc_length i xs]

lemma expandSeeds_mem {pool : List ℕ} {seeds : List (List ℕ)} {s : List ℕ}
    (hs : s ∈ expandSeeds pool seeds) : ∃ t ∈ seeds, ∃ i, s = insertAsc i t := by
  unfold expandSeeds at hs
  have h2 := dedupFirst_subset _ _ hs
  rw [List.mem_flatMap] at h2
  obtain ⟨t, ht, hmem⟩ := h2
  obtain ⟨i, _, rfl⟩ := List.mem_map.mp hmem
  exact ⟨t, ht, i, rfl⟩

lemma seedsOf_mem {t : List (α × List ℕ)} {tol : Option α} {s : List ℕ}
    (hs : s ∈ seedsOf t tol) : ∃ e ∈ t, s = e.2 := by
  cases tol with
  | none =>
      obtain ⟨e, he, rfl⟩ := List.mem_map.mp hs
      exact ⟨e, he, rfl⟩
  | some c =>
      rw [seedsOf] at hs
      obtain ⟨e, he, rfl⟩ := List.mem_map.mp hs
      exact ⟨e, List.mem_of_mem_filter he, rfl⟩

lemma candsStages_length (score : List ℕ → α) (pool : List ℕ) (N : ℕ)
    (tol : Option α) :
    ∀ (cnt : ℕ) (cands : List (List ℕ)),
      (candsStages score pool N tol cnt cands).length = cnt
  | 0, _ => rfl
  | cnt + 1, cands => by
      rw [candsStages, List.length_cons, candsStages_length score pool N tol cnt]

lemma candsStages_sizes (score : List ℕ → α) (pool : List ℕ) (N : ℕ)
    (tol : Option α) :
    ∀ (cnt : ℕ) (cands : List (List ℕ)) (k0 : ℕ),
      (∀ s ∈ cands, s.length = k0) →
      ∀ (l : ℕ) (hl : l < (candsStages score pool N tol cnt cands).length),
        ∀ s ∈ (candsStages score pool N tol cnt cands).get ⟨l, hl⟩,
          s.length = k0 + l
  | 0, cands, k0, h, l, hl => by
      rw [candsStages_length] at hl
      omega
  | cnt + 1, cands, k0, h, 0, hl => by
      intro s hsm
      have : s.length = k0 := h s hsm
      omega
  | cnt + 1, cands, k0, h, l + 1, hl => by
      intro s hsm
      have hnext : ∀ t ∈ expandSeeds pool (seedsOf (rankedTable score cands N) tol),
          t.length = k0 + 1 := by
        intro t ht
        obtain ⟨u, hu, i, rfl⟩ := expandSeeds_mem ht
        obtain ⟨e, he, rfl⟩ := seedsOf_mem hu
        have hmem := (rankedTable_row_mem score cands N he).2
        rw [insertAsc_length, h _ hmem]
      have hl2 : l < (candsStages score pool N tol cnt
          (expandSeeds pool (seedsOf (rankedTable score cands N) tol))).length := by
        rw [candsStages_length]
        rw [candsStages_length] at hl
        omega
      have hres := candsStages_sizes score pool N tol cnt _ (k0 + 1) hnext l hl2 s
        (by exact hsm)
      omega

lemma candsStages_nodup (score : List ℕ → α) (pool : List ℕ) (N : ℕ)
    (tol : Option α) :
    ∀ (cnt : ℕ) (cands : List (List ℕ)), cands.Nodup →
      ∀ (l : ℕ) (hl : l < (candsStages score pool N tol cnt cands).length),
        ((candsStages score pool N tol cnt cands).get ⟨l, hl⟩).Nodup
  | 0, cands, h, l, hl => by
      rw [candsStages_length] at hl
      omega
  | cnt + 1, cands, h, 0, hl => h
  | cnt + 1, cands, h, l + 1, hl => by
      have hl2 : l < (candsStages score pool N tol cnt
          (expandSeeds pool (seedsOf (rankedTable score cands N) tol))).length := by
        rw [candsStages_length]
        rw [candsStages_length] at hl
        omega
      exact candsStages_nodup score pool N tol cnt _ (dedupFirst_nodup _) l hl2

lemma filterSim_sublist (sim : ℕ → ℕ → Bool) :
    ∀ (kept l : List ℕ), (filterSim sim kept l).Sublist l
  | _, [] => List.Sublist.refl []
  | kept, i :: rest => by
      rw [filterSim]
      split_ifs with h
      · exact (filterSim_sublist sim kept rest).trans (List.sublist_cons_self i rest)
      · exact (filterSim_sublist sim (i :: kept) rest).cons₂ i

lemma filterSim_of_never (sim : ℕ → ℕ → Bool) (hsim : ∀ i j, sim i j = false) :
    ∀ (kept l : List ℕ), filterSim sim kept l = l
  | _, [] => rfl
  | kept, i :: rest => by
      rw [filterSim]
      have hany : (kept.any fun j => sim j i) = false := by
        simp [List.any_eq_false]
        intro j _
        exact hsim j i
      rw [hany]
      simp [filterSim_of_never sim hsim (i :: kept) rest]

lemma searchCands_length {α : Type} [LinearOrder α] (score : List ℕ → α)
    (sim : ℕ → ℕ → Bool) (m maxk N : ℕ) (tol : Option α) :
    (searchCands score sim m maxk N tol).length = min maxk m - 1 := by
  rw [searchCands, candsStages_length]

/-- C6: when `d_output < max_subset_size` the search does not generate any
subset of size greater than `d_output` and fails no computation: the list of
per-size tables is silently capped at sizes `2 .. d_output`, and the function
is total. -/
theorem c6_search_caps_at_d_output {α : Type} [LinearOrder α]
    (score : List ℕ → α) (sim : ℕ → ℕ → Bool) (m maxk N : ℕ) (tol : Option α)
    (h : m < maxk) :
    (choose_optimal_qois score sim m maxk N tol).length = m - 1 ∧
    ∀ t ∈ choose_optimal_qois score sim m maxk N tol, ∀ r ∈ t,
      r.2.length ≤ m := by
  have hmin : min maxk m = m := Nat.min_eq_right (le_of_lt h)
  constructor
  · rw [choose_optimal_qois, List.length_map, searchCands_length, hmin]
  · intro t ht r hr
    rw [choose_optimal_qois, List.mem_map] at ht
    obtain ⟨cs, hcs, rfl⟩ := ht
    obtain ⟨⟨l, hl⟩, hget⟩ := List.mem_iff_get.mp hcs
    have hsub := (rankedTable_row_mem score cs N hr).2
    rw [← hget] at hsub
    have hsize := candsStages_sizes score (filterSim sim [] (List.range m)) N tol
      (min maxk m - 1) (combos 2 (filterSim sim [] (List.range m))) 2
      (fun s hs => combos_length_mem 2 _ s hs) l hl r.2 hsub
    have hcnt : l < min maxk m - 1 := by
      have h2 := hl
      rw [searchCands_length] at h2
      exact h2
    omega

theorem c6_search_caps_witness :
    ((2 : ℕ) < 3) ∧
    ((choose_optimal_qois (fun s => s.length) (fun _ _ => false) 2 3 5
        (none : Option ℕ)).length = 2 - 1 ∧
      ∀ t ∈ choose_optimal_qois (fun s => s.length) (fun _ _ => false) 2 3 5
          (none : Option ℕ), ∀ r ∈ t, r.2.length ≤ 2) :=
  ⟨by omega,
    c6_search_caps_at_d_output (fun s => s.length) (fun _ _ => false) 2 3 5 none
      (by omega)⟩

/-- C10 counterexample: with `d_input = 3` but `d_output = 2`, the result of
`chooseOptQoIs_large` has a table only for size 2 — one entry, not the
`d_input - 1 = 2` entries (sizes `2 .. d_input`) the claim asserts. -/
theorem c10_counterexample :
    ¬ ((chooseOptQoIs_large (fun s => s.length) (fun _ _ => false) 2 3 3
        (none : Option ℕ)).length = 3 - 1) := by
  decide

/-- C10 (amended): the return value of `chooseOptQoIs_large` is a list indexed
by subset size minus two, with one entry per size
`2 .. min (d_input, d_output)` (capped at `d_output`, cf. C6); entry `l` holds
the ranked table for size `l + 2`, and each of its rows stores the candidate's
score together with its `l + 2` QoI indices. -/
theorem c10_result_shape {α : Type} [LinearOrder α] (score : List ℕ → α)
    (sim : ℕ → ℕ → Bool) (m din N : ℕ) (tol : Option α) :
    (chooseOptQoIs_large score sim m din N tol).length = min din m - 1 ∧
    ∀ (l : ℕ) (hl : l < (chooseOptQoIs_large score sim m din N tol).length),
      ∀ r ∈ (chooseOptQoIs_large score sim m din N tol).get ⟨l, hl⟩,
        r.1 = score r.2 ∧ r.2.length = l + 2 := by
  constructor
  · rw [chooseOptQoIs_large, choose_optimal_qois, List.length_map,
      searchCands_length]
  · intro l hl r hr
    have hl2 : l < (searchCands score sim m din N tol).length := by
      have h2 := hl
      rw [chooseOptQoIs_large, choose_optimal_qois, List.length_map] at h2
      exact h2
    have hget : (chooseOptQoIs_large score sim m din N tol).get ⟨l, hl⟩
        = rankedTable score ((searchCands score sim m din N tol).get ⟨l, hl2⟩) N := by
      show ((searchCands score sim m din N tol).map
        (fun cs => rankedTable score cs N)).get ⟨l, hl⟩ = _
      rw [List.get_eq_getElem, List.getElem_map, List.get_eq_getElem]
    rw [hget] at hr
    obtain ⟨hsc, hmem⟩ := rankedTable_row_mem score _ N hr
    refine ⟨hsc, ?_⟩
    have hsize := candsStages_sizes score (filterSim sim [] (List.range m)) N tol
      (min din m - 1) (combos 2 (filterSim sim [] (List.range m))) 2
      (fun s hs => combos_length_mem 2 _ s hs) l hl2 r.2 hmem
    omega

theorem c10_result_shape_witness :
    (0 : ℕ) < (chooseOptQoIs_large (fun s => s.length) (fun _ _ => false) 3 3 2
        (none : Option ℕ)).length ∧
    ∀ r ∈ (chooseOptQoIs_large (fun s => s.length) (fun _ _ => false) 3 3 2
        (none : Option ℕ)).get ⟨0, by decide⟩,
      r.1 = r.2.length ∧ r.2.length = 0 + 2 := by
  constructor
  · decide
  · intro r hr
    exact (c10_result_shape (fun s => s.length) (fun _ _ => false) 3 3 2
      none).2 0 (by decide) r hr

/-- C5: every per-size entry of the search result is a ranked table: ascending
in score, holding at most `num_optsets_return` pairwise-distinct candidate
subsets, with score ties broken by order of first discovery in the per-size
candidate enumeration (`searchCands`). -/
theorem c5_ranked_table_invariants {α : Type} [LinearOrder α]
    (score : List ℕ → α) (sim : ℕ → ℕ → Bool) (m maxk N : ℕ) (tol : Option α)
    (l : ℕ) (hl : l < (choose_optimal_qois score sim m maxk N tol).length)
    (hl2 : l < (searchCands score sim m maxk N tol).length) :
    ((choose_optimal_qois score sim m maxk N tol).get ⟨l, hl⟩).length ≤ N ∧
    ((choose_optimal_qois score sim m maxk N tol).get ⟨l, hl⟩).Pairwise
      (fun a b => a.1 ≤ b.1) ∧
    (((choose_optimal_qois score sim m maxk N tol).get ⟨l, hl⟩).map
      (fun e => e.2)).Nodup ∧
    ∀ (i j : ℕ)
      (hi : i < ((choose_optimal_qois score sim m maxk N tol).get ⟨l, hl⟩).length)
      (hj : j < ((choose_optimal_qois score sim m maxk N tol).get ⟨l, hl⟩).length),
      i < j →
      (((choose_optimal_qois score sim m maxk N tol).get ⟨l, hl⟩).get ⟨i, hi⟩).1
          < (((choose_optimal_qois score sim m maxk N tol).get ⟨l, hl⟩).get ⟨j, hj⟩).1 ∨
      ((((choose_optimal_qois score sim m maxk N tol).get ⟨l, hl⟩).get ⟨i, hi⟩).1
          = (((choose_optimal_qois score sim m maxk N tol).get ⟨l, hl⟩).get ⟨j, hj⟩).1 ∧
        discoveryIndex ((searchCands score sim m maxk N tol).get ⟨l, hl2⟩)
            ((((choose_optimal_qois score sim m maxk N tol).get ⟨l, hl⟩).get ⟨i, hi⟩).2)
          < discoveryIndex ((searchCands score sim m maxk N tol).get ⟨l, hl2⟩)
            ((((choose_optimal_qois score sim m maxk N tol).get ⟨l, hl⟩).get ⟨j, hj⟩).2)) := by
  classical
  have hget : (choose_optimal_qois score sim m maxk N tol).get ⟨l, hl⟩
      = rankedTable score ((searchCands score sim m maxk N tol).get ⟨l, hl2⟩) N := by
    show ((searchCands score sim m maxk N tol).map
      (fun cs => rankedTable score cs N)).get ⟨l, hl⟩ = _
    rw [List.get_eq_getElem, List.getElem_map, List.get_eq_getElem]
  have hpool : (filterSim sim [] (List.range m)).Nodup :=
    List.Nodup.sublist (filterSim_sublist sim [] (List.range m))
      (List.nodup_range m)
  have hnd : ((searchCands score sim m maxk N tol).get ⟨l, hl2⟩).Nodup :=
    candsStages_nodup score (filterSim sim [] (List.range m)) N tol
      (min maxk m - 1) (combos 2 (filterSim sim [] (List.range m)))
      (combos_nodup 2 _ hpool) l hl2
  refine ⟨?_, ?_, ?_, ?_⟩
  · rw [hget]
    exact rankedTable_length_le score _ N
  · rw [hget]
    exact rankedTable_sorted score _ N
  · rw [hget]
    exact rankedTable_subsets_nodup score _ N hnd
  · intro i j hi hj hij
    rcases lt_trichotomy i j with h2 | h2 | h2
    · have hi2 : i < (rankedTable score
          ((searchCands score sim m maxk N tol).get ⟨l, hl2⟩) N).length := by
        rw [← hget]
        exact hi
      have hj2 : j < (rankedTable score
          ((searchCands score sim m maxk N tol).get ⟨l, hl2⟩) N).length := by
        rw [← hget]
        exact hj
      have hres := rankedTable_stable score
        ((searchCands score sim m maxk N tol).get ⟨l, hl2⟩) N hnd hi2 hj2 h2
      have hgi := List.get_of_eq hget ⟨i, hi⟩
      have hgj := List.get_of_eq hget ⟨j, hj⟩
      rw [hgi, hgj]
      exact hres
    · omega
    · omega

theorem c5_ranked_table_witness :
    (0 : ℕ) < (choose_optimal_qois (fun s => s.sum) (fun _ _ => false) 3 2 2
        (none : Option ℕ)).length ∧
    ((choose_optimal_qois (fun s => s.sum) (fun _ _ => false) 3 2 2
        (none : Option ℕ)).get ⟨0, by decide⟩).length ≤ 2 ∧
    ((choose_optimal_qois (fun s => s.sum) (fun _ _ => false) 3 2 2
        (none : Option ℕ)).get ⟨0, by decide⟩).Pairwise (fun a b => a.1 ≤ b.1) := by
  have h := c5_ranked_table_invariants (fun s => s.sum) (fun _ _ => false) 3 2 2
    none 0 (by decide) (by decide)
  exact ⟨by decide, h.1, h.2.1⟩

end SearchLemmas

/-! ### The BET instantiation of the search (spec 4.2 + 4.3) -/

/-- Modelled from the spec: restriction of a Jacobian to the rows listed in an
index list (out-of-range entries read as zero; the search only produces
in-range indices). -/
def restrictList (J : Matrix (Fin m) (Fin n) ℝ) (s : List ℕ) :
    Matrix (Fin s.length) (Fin n) ℝ :=
  Matrix.of fun i j => if h : s.get i < m then J ⟨s.get i, h⟩ j else 0

/-- Score of an index-list subset: `score_subset` over the list form of the
selected row indices. -/
noncomputable def score_subset_list (J : Matrix (Fin m) (Fin n) ℝ) (s : List ℕ)
    (crit : Criterion) : ℝ≥0∞ :=
  scoreMatrix (restrictList J s) crit

/-- Modelled from the spec (4.2): the score of a candidate subset is the
arithmetic mean of its `score_subset` scores across all supplied Jacobians
(one per cluster center). -/
noncomputable def avg_score_subset (jacs : List (Matrix (Fin m) (Fin n) ℝ))
    (crit : Criterion) (s : List ℕ) : ℝ≥0∞ :=
  (jacs.map fun J => score_subset_list J s crit).sum / (jacs.length : ℝ≥0∞)

/-- Gradient vector of one QoI index in one Jacobian (rows are QoIs). -/
def rowVec (J : Matrix (Fin m) (Fin n) ℝ) (i : ℕ) : Fin n → ℝ :=
  fun j => if h : i < m then J ⟨i, h⟩ j else 0

/-- Average gradient vector of a QoI index over the cluster centers. -/
noncomputable def avgRowVec (jacs : List (Matrix (Fin m) (Fin n) ℝ)) (i : ℕ) :
    Fin n → ℝ :=
  fun j => (jacs.map fun J => rowVec J i j).sum / (jacs.length : ℝ)

/-- Modelled from the spec (4.3): two candidate QoI indices are similar when
the cosine similarity of their (averaged) gradient vectors exceeds
`inner_prod_tol`, compared in squared form to avoid square roots. -/
noncomputable def similarQoI (jacs : List (Matrix (Fin m) (Fin n) ℝ))
    (tol : ℝ) (i j : ℕ) : Bool :=
  decide ((∑ l, avgRowVec jacs i l * avgRowVec jacs j l) ^ 2 >
    tol ^ 2 * ((∑ l, avgRowVec jacs i l ^ 2) * (∑ l, avgRowVec jacs j l ^ 2)))

/-- With `inner_prod_tol = 1.0` no pair of indices is ever flagged similar:
Cauchy-Schwarz bounds the squared inner product by the product of squared
norms, so the similarity pruning is disabled. -/
lemma similarQoI_one_false (jacs : List (Matrix (Fin m) (Fin n) ℝ)) (i j : ℕ) :
    similarQoI jacs 1 i j = false := by
  rw [similarQoI, decide_eq_false_iff_not, not_lt, one_pow, one_mul]
  exact Finset.sum_mul_sq_le_sq_mul_sq Finset.univ (avgRowVec jacs i)
    (avgRowVec jacs j)

/-- Stated from the spec's idempotence property: the brute-force ranking over
all `C(d_output, 2)` index pairs — every pair scored, the whole list ordered
by ascending score with ties in discovery order, nothing filtered or
truncated. -/
def bruteForceRanking {α : Type} [LinearOrder α] (score : List ℕ → α)
    (m : ℕ) : List (α × List ℕ) :=
  (List.insertionSort tagLE (scoredCands score (combos 2 (List.range m)))).map
    (fun e => e.2)

/-- C4: with `max_subset_size = 2`, `inner_prod_tol = 1.0` (no similarity
pruning) and `num_optsets_return ≥ C(d_output, 2)`, the search returns exactly
the brute-force ranking of all index pairs ordered by their (averaged)
`score_subset` scores. -/
theorem c4_pairs_bruteforce (m n : ℕ) (jacs : List (Matrix (Fin m) (Fin n) ℝ))
    (crit : Criterion) (N : ℕ) (hm : 2 ≤ m) (hN : m.choose 2 ≤ N) :
    choose_optimal_qois (avg_score_subset jacs crit) (similarQoI jacs 1) m 2 N
        (none : Option ℝ≥0∞)
      = [bruteForceRanking (avg_score_subset jacs crit) m] := by
  classical
  have hpool : filterSim (similarQoI jacs 1) [] (List.range m) = List.range m :=
    filterSim_of_never _ (similarQoI_one_false jacs) [] (List.range m)
  have hcnt : min 2 m - 1 = 1 := by omega
  rw [choose_optimal_qois, searchCands, hpool, hcnt]
  have hstages : candsStages (avg_score_subset jacs crit) (List.range m) N none 1
      (combos 2 (List.range m)) = [combos 2 (List.range m)] := rfl
  rw [hstages, List.map_cons, List.map_nil]
  congr 1
  rw [rankedTable, bruteForceRanking]
  have hlen : (List.insertionSort tagLE (scoredCands (avg_score_subset jacs crit)
      (combos 2 (List.range m)))).length = m.choose 2 := by
    rw [(List.perm_insertionSort (tagLE (α := ℝ≥0∞)) _).length_eq,
      scoredCands_length, combos_count, List.length_range]
  rw [List.take_all_of_le (by rw [hlen]; exact hN)]

theorem c4_pairs_bruteforce_witness :
    ((2 ≤ 2 ∧ Nat.choose 2 2 ≤ 1) ∧
    choose_optimal_qois
        (avg_score_subset [(!![(3:ℝ); 4] : Matrix (Fin 2) (Fin 1) ℝ)]
          Criterion.measure)
        (similarQoI [(!![(3:ℝ); 4] : Matrix (Fin 2) (Fin 1) ℝ)] 1) 2 2 1
        (none : Option ℝ≥0∞)
      = [bruteForceRanking
          (avg_score_subset [(!![(3:ℝ); 4] : Matrix (Fin 2) (Fin 1) ℝ)]
            Criterion.measure) 2]) :=
  ⟨⟨le_refl 2, by decide⟩,
    c4_pairs_bruteforce 2 1 [(!![(3:ℝ); 4] : Matrix (Fin 2) (Fin 1) ℝ)]
      Criterion.measure 1 (le_refl 2) (by decide)⟩

/-! ### Worker merge of ranked result tables (spec 5) -/

section Merge

variable {α : Type} [LinearOrder α]

/-- Lexicographic comparison of index lists: the canonical ordering of index
subsets used to break score ties in the merge. -/
def listLe : List ℕ → List ℕ → Bool
  | [], _ => true
  | _ :: _, [] => false
  | a :: as, b :: bs => if a < b then true else if b < a then false else listLe as bs

lemma listLe_cons_iff {a b : ℕ} {as bs : List ℕ} :
    listLe (a :: as) (b :: bs) = true ↔ a < b ∨ (a = b ∧ listLe as bs = true) := by
  rw [listLe]
  split_ifs with h1 h2
  · simp [h1]
  · constructor
    · intro hc
      simp at hc
    · intro hc
      rcases hc with hc | ⟨hc, _⟩ <;> omega
  · have he : a = b := by omega
    simp [he, lt_irrefl]

lemma listLe_refl : ∀ s : List ℕ, listLe s s = true
  | [] => rfl
  | _ :: as => listLe_cons_iff.mpr (Or.inr ⟨rfl, listLe_refl as⟩)

lemma listLe_total : ∀ s t : List ℕ, listLe s t = true ∨ listLe t s = true
  | [], _ => Or.inl rfl
  | _ :: _, [] => Or.inr rfl
  | a :: as, b :: bs => by
      rcases Nat.lt_trichotomy a b with h | h | h
      · exact Or.inl (listLe_cons_iff.mpr (Or.inl h))
      · rcases listLe_total as bs with h2 | h2
        · exact Or.inl (listLe_cons_iff.mpr (Or.inr ⟨h, h2⟩))
        · exact Or.inr (listLe_cons_iff.mpr (Or.inr ⟨h.symm, h2⟩))
      · exact Or.inr (listLe_cons_iff.mpr (Or.inl h))

lemma listLe_trans : ∀ s t u : List ℕ, listLe s t = true → listLe t u = true →
    listLe s u = true
  | [], _, _, _, _ => rfl
  | _ :: _, [], _, h, _ => by simp [listLe] at h
  | _ :: _, _ :: _, [], _, h => by simp [listLe] at h
  | a :: as, b :: bs, c :: cs, h1, h2 => by
      rw [listLe_cons_iff] at h1 h2 ⊢
      rcases h1 with h1 | ⟨h1, h1t⟩ <;> rcases h2 with h2 | ⟨h2, h2t⟩
      · exact Or.inl (by omega)
      · exact Or.inl (by omega)
      · exact Or.inl (by omega)
      · exact Or.inr ⟨by omega, listLe_trans as bs cs h1t h2t⟩

lemma listLe_antisymm : ∀ s t : List ℕ, listLe s t = true → listLe t s = true →
    s = t
  | [], [], _, _ => rfl
  | [], _ :: _, _, h => by simp [listLe] at h
  | _ :: _, [], h, _ => by simp [listLe] at h
  | a :: as, b :: bs, h1, h2 => by
      rw [listLe_cons_iff] at h1 h2
      rcases h1 with h1 | ⟨h1, h1t⟩
      · rcases h2 with h2 | ⟨h2, _⟩ <;> omega
      · rcases h2 with h2 | ⟨_, h2t⟩
        · omega
        · rw [h1, listLe_antisymm as bs h1t h2t]

/-- Modelled from the spec (5): the canonical comparator for the reduction
step — ascending score, ties broken by the canonical ordering of the index
subsets — making the merge deterministic. -/
def canonLE (a b : α × List ℕ) : Prop :=
  a.1 < b.1 ∨ (a.1 = b.1 ∧ listLe a.2 b.2 = true)

instance : DecidableRel (canonLE (α := α)) := fun a b => by
  unfold canonLE
  infer_instance

lemma canonLE_refl (a : α × List ℕ) : canonLE a a :=
  Or.inr ⟨rfl, listLe_refl a.2⟩

instance : IsTotal (α × List ℕ) canonLE :=
  ⟨fun a b => by
    rcases lt_trichotomy a.1 b.1 with h | h | h
    · exact Or.inl (Or.inl h)
    · rcases listLe_total a.2 b.2 with h2 | h2
      · exact Or.inl (Or.inr ⟨h, h2⟩)
      · exact Or.inr (Or.inr ⟨h.symm, h2⟩)
    · exact Or.inr (Or.inl h)⟩

instance : IsTrans (α × List ℕ) canonLE :=
  ⟨fun a b c hab hbc => by
    rcases hab with h1 | ⟨h1, h1t⟩ <;> rcases hbc with h2 | ⟨h2, h2t⟩
    · exact Or.inl (h1.trans h2)
    · exact Or.inl (lt_of_lt_of_le h1 (le_of_eq h2))
    · exact Or.inl (lt_of_le_of_lt (le_of_eq h1) h2)
    · exact Or.inr ⟨h1.trans h2, listLe_trans _ _ _ h1t h2t⟩⟩

instance : IsAntisymm (α × List ℕ) canonLE :=
  ⟨fun a b h1 h2 => by
    rcases h1 with h1 | ⟨h1, h1t⟩
    · rcases h2 with h2 | ⟨h2, _⟩
      · exact absurd h2 (lt_asymm h1)
      · exact absurd (h2 ▸ h1) (lt_irrefl _)
    · rcases h2 with h2 | ⟨_, h2t⟩
      · exact absurd (h1 ▸ h2) (lt_irrefl _)
      · exact Prod.ext h1 (listLe_antisymm _ _ h1t h2t)⟩

/-- Modelled from the spec (5): a worker's partial ranked table over its own
slice of the scored candidates — canonical sort, truncated to the best N. -/
def workerTable (N : ℕ) (chunk : List (α × List ℕ)) : List (α × List ℕ) :=
  (List.insertionSort canonLE chunk).take N

/-- Modelled from the spec (5): the reduction — the partial tables are merged
by concatenation followed by a global re-sort and truncation to the top N. -/
def mergeTables (N : ℕ) (parts : List (List (α × List ℕ))) : List (α × List ℕ) :=
  (List.insertionSort canonLE parts.flatten).take N

lemma sort_eq_of_perm {l1 l2 : List (α × List ℕ)} (h : List.Perm l1 l2) :
    List.insertionSort canonLE l1 = List.insertionSort canonLE l2 :=
  List.eq_of_perm_of_sorted
    (((List.perm_insertionSort canonLE l1).trans h).trans
      (List.perm_insertionSort canonLE l2).symm)
    (List.sorted_insertionSort canonLE l1) (List.sorted_insertionSort canonLE l2)

lemma sorted_take_replicate (y : α × List ℕ) :
    ∀ (s : List (α × List ℕ)), List.Sorted canonLE s → (∀ x ∈ s, canonLE y x) →
      ∀ N, N ≤ s.countP (fun x => decide (canonLE x y)) →
        s.take N = List.replicate N y
  | [], _, _, N, hN => by
      simp only [List.countP_nil, Nat.le_zero] at hN
      subst hN
      simp
  | b :: s2, hs, hy, 0, _ => by simp
  | b :: s2, hs, hy, N + 1, hN => by
      have hs2 : List.Sorted canonLE s2 := hs.of_cons
      have hyb : canonLE y b := hy b (List.mem_cons_self b s2)
      have hby : canonLE b y := by
        by_contra hc
        have hz : s2.countP (fun x => decide (canonLE x y)) = 0 := by
          rw [List.countP_eq_zero]
          intro x hx
          simp only [decide_eq_true_eq]
          intro hxy
          exact hc (IsTrans.trans b x y (List.rel_of_sorted_cons hs x hx) hxy)
        rw [List.countP_cons, hz] at hN
        simp [hc] at hN
      have hbeq : b = y := antisymm hby hyb
      subst hbeq
      rw [List.take_succ_cons, List.replicate_succ]
      congr 1
      apply sorted_take_replicate b s2 hs2
        (fun x hx => hy x (List.mem_cons_of_mem b hx)) N
      rw [List.countP_cons] at hN
      simp only [canonLE_refl b, decide_eq_true_eq, if_pos] at hN
      omega

lemma orderedInsert_take (y : α × List ℕ) :
    ∀ (s : List (α × List ℕ)), List.Sorted canonLE s →
      ∀ N, N ≤ s.countP (fun x => decide (canonLE x y)) →
        (s.orderedInsert canonLE y).take N = s.take N
  | [], _, N, hN => by
      simp only [List.countP_nil, Nat.le_zero] at hN
      subst hN
      simp
  | b :: s2, hs, N, hN => by
      rw [List.orderedInsert]
      split_ifs with hyb
      · have hyall : ∀ x ∈ b :: s2, canonLE y x := by
          intro x hx
          rcases List.mem_cons.mp hx with rfl | hx2
          · exact hyb
          · exact IsTrans.trans y b x hyb (List.rel_of_sorted_cons hs x hx2)
        have h1 : (b :: s2).take N = List.replicate N y :=
          sorted_take_replicate y (b :: s2) hs hyall N hN
        have hyall2 : ∀ x ∈ y :: b :: s2, canonLE y x := by
          intro x hx
          rcases List.mem_cons.mp hx with rfl | hx2
          · exact canonLE_refl x
          · exact hyall x hx2
        have hsy : List.Sorted canonLE (y :: b :: s2) :=
          List.sorted_cons.mpr ⟨fun x hx => hyall x hx, hs⟩
        have hcnt2 : N ≤ (y :: b :: s2).countP (fun x => decide (canonLE x y)) := by
          rw [List.countP_cons]
          omega
        have h2 : (y :: b :: s2).take N = List.replicate N y :=
          sorted_take_replicate y (y :: b :: s2) hsy hyall2 N hcnt2
        rw [h1, h2]
      · cases N with
        | zero => simp
        | succ N2 =>
            rw [List.take_succ_cons, List.take_succ_cons]
            congr 1
            apply orderedInsert_take y s2 hs.of_cons N2
            rw [List.countP_cons] at hN
            have hle1 : (if decide (canonLE b y) = true then 1 else 0) ≤ 1 := by
              split_ifs <;> omega
            omega

lemma take_sort_cons (N : ℕ) (y : α × List ℕ) (l : List (α × List ℕ))
    (h : N ≤ l.countP (fun x => decide (canonLE x y))) :
    (List.insertionSort canonLE (y :: l)).take N
      = (List.insertionSort canonLE l).take N := by
  have hdef : List.insertionSort canonLE (y :: l)
      = (List.insertionSort canonLE l).orderedInsert canonLE y := rfl
  rw [hdef]
  apply orderedInsert_take y _ (List.sorted_insertionSort canonLE l) N
  rwa [(List.perm_insertionSort canonLE l).countP_eq]

lemma take_sort_append (N : ℕ) (kept : List (α × List ℕ)) :
    ∀ (D : List (α × List ℕ)),
      (∀ y ∈ D, N ≤ kept.countP (fun x => decide (canonLE x y))) →
      (List.insertionSort canonLE (kept ++ D)).take N
        = (List.insertionSort canonLE kept).take N
  | [], _ => by simp
  | y :: D2, hD => by
      have hmid : List.Perm (kept ++ y :: D2) (y :: (kept ++ D2)) :=
        List.perm_middle
      rw [sort_eq_of_perm hmid]
      rw [take_sort_cons N y (kept ++ D2) (by
        rw [List.countP_append]
        have h2 := hD y (List.mem_cons_self y D2)
        omega)]
      exact take_sort_append N kept D2
        (fun z hz => hD z (List.mem_cons_of_mem y hz))

lemma perm_append_swap {β : Type} (a b c d : List β) :
    List.Perm ((a ++ b) ++ (c ++ d)) ((a ++ c) ++ (b ++ d)) := by
  have h : List.Perm (b ++ (c ++ d)) (c ++ (b ++ d)) := by
    have h2 : List.Perm ((b ++ c) ++ d) ((c ++ b) ++ d) :=
      List.Perm.append_right d List.perm_append_comm
    simpa [List.append_assoc] using h2
  have h3 := List.Perm.append_left a h
  simpa [List.append_assoc] using h3

lemma flatten_split_perm (N : ℕ) :
    ∀ (parts : List (List (α × List ℕ))), List.Perm parts.flatten
      ((parts.map (workerTable N)).flatten
        ++ (parts.map (fun c => (List.insertionSort canonLE c).drop N)).flatten)
  | [] => by simp
  | p :: ps => by
      simp only [List.flatten_cons, List.map_cons]
      have hp : List.Perm p
          (workerTable N p ++ (List.insertionSort canonLE p).drop N) := by
        rw [workerTable, List.take_append_drop]
        exact (List.perm_insertionSort canonLE p).symm
      refine ((List.Perm.append hp (flatten_split_perm N ps)).trans ?_)
      exact perm_append_swap _ _ _ _

/-- C8: splitting the scored candidates across any number of workers in any
order, computing per-worker partial ranked tables, and merging them by
concatenation followed by a global canonical re-sort and truncation yields
exactly the single-worker global ranked table — the result is independent of
the worker count and of the arrival order of the partial results. -/
theorem c8_merge_deterministic (N : ℕ) (cands : List (α × List ℕ))
    (parts : List (List (α × List ℕ)))
    (hparts : List.Perm parts.flatten cands) :
    mergeTables N (parts.map (workerTable N)) = workerTable N cands := by
  classical
  have hR : workerTable N cands
      = (List.insertionSort canonLE parts.flatten).take N := by
    rw [workerTable, sort_eq_of_perm hparts]
  rw [hR, mergeTables]
  have hsplit := flatten_split_perm N parts
  rw [sort_eq_of_perm hsplit]
  refine (take_sort_append N _ _ ?_).symm
  intro y hy
  rw [List.mem_flatten] at hy
  obtain ⟨l, hl, hyl⟩ := hy
  rw [List.mem_map] at hl
  obtain ⟨c, hc, rfl⟩ := hl
  obtain ⟨t, ht, hy2⟩ := List.mem_iff_getElem.mp hyl
  rw [List.getElem_drop] at hy2
  have hlen : N ≤ (List.insertionSort canonLE c).length := by
    rw [List.length_drop] at ht
    omega
  have hall : ∀ x ∈ workerTable N c, decide (canonLE x y) = true := by
    intro x hx
    rw [workerTable, List.mem_take_iff_getElem] at hx
    obtain ⟨i, hi, rfl⟩ := hx
    have hilen : i < (List.insertionSort canonLE c).length := by
      rw [List.length_drop] at ht
      omega
    have hbound : N + t < (List.insertionSort canonLE c).length := by
      rw [List.length_drop] at ht
      omega
    have hiN : i < N + t := by
      rw [List.length_drop] at ht
      omega
    have hrel := List.pairwise_iff_getElem.mp
      (List.sorted_insertionSort canonLE c) i (N + t) hilen hbound hiN
    rw [hy2] at hrel
    simpa using hrel
  have hwlen : (workerTable N c).length = N := by
    rw [workerTable, List.length_take]
    omega
  have hcw : (workerTable N c).countP (fun x => decide (canonLE x y)) = N := by
    rw [List.countP_eq_length.mpr hall, hwlen]
  have hmem2 : workerTable N c ∈ parts.map (workerTable N) :=
    List.mem_map_of_mem (workerTable N) hc
  rw [List.countP_flatten]
  calc N = (workerTable N c).countP (fun x => decide (canonLE x y)) := hcw.symm
  _ ≤ _ := List.single_le_sum (fun x _ => Nat.zero_le x) _
      (List.mem_map_of_mem (fun l => l.countP (fun x => decide (canonLE x y))) hmem2)

theorem c8_merge_witness :
    List.Perm ([[((2:ℕ), [0,1]), ((1:ℕ), [1,2])], [((1:ℕ), [0,2])]].flatten)
      [((2:ℕ), [0,1]), ((1:ℕ), [1,2]), ((1:ℕ), [0,2])] ∧
    mergeTables 2 ([[((2:ℕ), [0,1]), ((1:ℕ), [1,2])],
        [((1:ℕ), [0,2])]].map (workerTable 2))
      = workerTable 2 [((2:ℕ), [0,1]), ((1:ℕ), [1,2]), ((1:ℕ), [0,2])] :=
  ⟨by decide, c8_merge_deterministic 2 _ _ (by decide)⟩

end Merge

/-! ### Gradient Estimator (spec 4.1) -/

section Gradients

variable {din dout : ℕ}

/-- Modelled from the spec (3, module `bet.sensitivity.gradients` absent from
the sources): a sample set — an ordered sequence of points in `R^d` together
with per-dimension domain bounds. -/
structure SampleSetQ (d : ℕ) : Type where
  values : List (Fin d → ℚ)
  domain : Fin d → ℚ × ℚ

/-- Modelled from the spec (3): a discretization pairs an input sample set
with an output sample set (same sample count, index-aligned). -/
structure DiscretizationQ (din dout : ℕ) : Type where
  inp : SampleSetQ din
  out : SampleSetQ dout

/-- Squared Euclidean distance between two points. -/
def sqDist (x y : Fin din → ℚ) : ℚ := ∑ j, (x j - y j) ^ 2

/-- Point of a sample list at an index (zero point when out of range). -/
def getPt (vals : List (Fin din → ℚ)) (i : ℕ) : Fin din → ℚ :=
  match vals.get? i with
  | some v => v
  | none => fun _ => 0

/-- Distance of the sample at an index from the center. -/
def distTo (vals : List (Fin din → ℚ)) (c : Fin din → ℚ) (i : ℕ) : ℚ :=
  sqDist (getPt vals i) c

/-- Modelled from the spec (4.1): the local neighborhood of a center — the
`nn` nearest input samples by Euclidean distance (a deterministic stable sort
of the sample indices by squared distance). -/
def neighborsOf (vals : List (Fin din → ℚ)) (c : Fin din → ℚ) (nn : ℕ) :
    List ℕ :=
  (@List.insertionSort ℕ (fun i j => distTo vals c i ≤ distTo vals c j)
    (fun i j => inferInstanceAs (Decidable (distTo vals c i ≤ distTo vals c j)))
    (List.range vals.length)).take nn

/-- Modelled from the spec (4.1): the per-output-dimension data range
(max minus min over the sample set), used for normalization. -/
def rangeOf (vals : List (Fin dout → ℚ)) (j : Fin dout) : ℚ :=
  (vals.map (fun v => v j)).foldr max 0 - (vals.map (fun v => v j)).foldr min 0

/-- Modelled from the spec (4.1): the weighted least-squares fit of a local
linear (Jacobian) model from displacement pairs, with RBF weights given by
`w` applied to the squared distance from the center.  The normal equations
are solved through the adjugate; a rank-deficient local geometry (singular
normal matrix, no unique least-squares solution) yields `none`
(`DegenerateGeometryError`). -/
def fitJacobian (w : ℚ → ℚ) (c : Fin din → ℚ) (yc : Fin dout → ℚ)
    (scale : Fin dout → ℚ) (pts : List ((Fin din → ℚ) × (Fin dout → ℚ))) :
    Option (Matrix (Fin dout) (Fin din) ℚ) :=
  let M : Matrix (Fin din) (Fin din) ℚ :=
    (pts.map (fun p => w (sqDist p.1 c) •
      Matrix.vecMulVec (fun i => p.1 i - c i) (fun i => p.1 i - c i))).sum
  let B : Matrix (Fin dout) (Fin din) ℚ :=
    (pts.map (fun p => w (sqDist p.1 c) •
      Matrix.vecMulVec (fun j => (p.2 j - yc j) * scale j)
        (fun i => p.1 i - c i))).sum
  if M.det = 0 then none else some (B * (M.det⁻¹ • M.adjugate))

/-- Modelled from the spec (4.1): `estimate_gradients` — for each center of an
externally-fixed deterministic selection (`centers`, chosen from a seed
outside this component), fit a local Jacobian by RBF-weighted least squares
over the neighborhood of the `numNeighbors` nearest samples; output
displacements are divided by the per-dimension data range when `normalize` is
set.  A center with fewer neighbors than free parameters yields `none`
(`InsufficientDataError`), a degenerate neighborhood yields `none`
(`DegenerateGeometryError`); failures for one center do not abort the rest. -/
def estimate_gradients (disc : DiscretizationQ din dout) (centers : List ℕ)
    (numNeighbors : ℕ) (w : ℚ → ℚ) (normalize : Bool) :
    List (Option (Matrix (Fin dout) (Fin din) ℚ)) :=
  let xs := disc.inp.values
  let ys := disc.out.values
  let scale : Fin dout → ℚ := fun j => if normalize then (rangeOf ys j)⁻¹ else 1
  centers.map (fun ci =>
    let c := getPt xs ci
    let yc := getPt ys ci
    let nbrs := neighborsOf xs c numNeighbors
    if nbrs.length < din then none
    else fitJacobian w c yc scale (nbrs.map (fun i => (getPt xs i, getPt ys i))))

/-- C9: `estimate_gradients` has no hidden nondeterminism — two runs on
discretizations with identical sample values and domains, with the same
deterministic center selection, neighborhood size, RBF weight function and
normalization flag, produce identical Jacobian collections. -/
theorem c9_estimate_gradients_deterministic
    (d1 d2 : DiscretizationQ din dout) (centers : List ℕ) (numNeighbors : ℕ)
    (w : ℚ → ℚ) (normalize : Bool)
    (hinv : d1.inp.values = d2.inp.values)
    (hind : d1.inp.domain = d2.inp.domain)
    (houtv : d1.out.values = d2.out.values)
    (houtd : d1.out.domain = d2.out.domain) :
    estimate_gradients d1 centers numNeighbors w normalize
      = estimate_gradients d2 centers numNeighbors w normalize := by
  obtain ⟨⟨iv1, id1⟩, ov1, od1⟩ := d1
  obtain ⟨⟨iv2, id2⟩, ov2, od2⟩ := d2
  simp only at hinv hind houtv houtd
  subst hinv
  subst hind
  subst houtv
  subst houtd
  rfl

theorem c9_estimate_gradients_witness :
    (DiscretizationQ.mk (SampleSetQ.mk [fun _ : Fin 1 => (0:ℚ), fun _ => 1]
          (fun _ => (0, 1)))
        (SampleSetQ.mk [fun _ : Fin 1 => (0:ℚ), fun _ => 2]
          (fun _ => (0, 2)))).inp.values
      = (DiscretizationQ.mk (SampleSetQ.mk [fun _ : Fin 1 => (0:ℚ), fun _ => 1]
          (fun _ => (0, 1)))
        (SampleSetQ.mk [fun _ : Fin 1 => (0:ℚ), fun _ => 2]
          (fun _ => (0, 2)))).inp.values ∧
    estimate_gradients
        (DiscretizationQ.mk (SampleSetQ.mk [fun _ : Fin 1 => (0:ℚ), fun _ => 1]
            (fun _ => (0, 1)))
          (SampleSetQ.mk [fun _ : Fin 1 => (0:ℚ), fun _ => 2]
            (fun _ => (0, 2)))) [0] 1 (fun _ => 1) true
      = estimate_gradients
        (DiscretizationQ.mk (SampleSetQ.mk [fun _ : Fin 1 => (0:ℚ), fun _ => 1]
            (fun _ => (0, 1)))
          (SampleSetQ.mk [fun _ : Fin 1 => (0:ℚ), fun _ => 2]
            (fun _ => (0, 2)))) [0] 1 (fun _ => 1) true :=
  ⟨rfl,
    c9_estimate_gradients_deterministic _ _ [0] 1 (fun _ => 1) true
      rfl rfl rfl rfl⟩

end Gradients

end BET
